import Mathlib

/-!
Verification of the GenesisZ genesis-block builder (genesis.py).

The program is shallowly embedded: Python strings are modelled as lists of
characters (`Str`), Python bytes objects as lists of naturals (`Bytes`).
External collaborators that are not part of the repository source
(the protocol-encoding library `bitcoin`/`zcash`, the `pyblake2` digest,
the block-explorer lookup module, the logger and the solver processes) are
modelled as explicit parameters or, where the specification fixes their
behaviour, as definitions marked `Modelled from the spec`.
-/

namespace GenesisZ

/-- Python strings are modelled as lists of characters. -/
abbrev Str := List Char

/-- Python bytes objects are modelled as lists of naturals (each below 256). -/
abbrev Bytes := List Nat

/-- Modelled from the spec: the lookup collaborator interface of the
blockexplorer module (absent from src/): getLatest(code) yields a pair of a
block height and a block hash string. Kept abstract as a parameter. -/
abbrev Explorer := Str → Nat × Str

/-- Value of a single hexadecimal digit, as accepted by binascii.unhexlify
(both lowercase and uppercase digits). -/
def hexVal (c : Char) : Option Nat :=
  if '0' ≤ c ∧ c ≤ '9' then some (c.toNat - 48)
  else if 'a' ≤ c ∧ c ≤ 'f' then some (c.toNat - 87)
  else if 'A' ≤ c ∧ c ≤ 'F' then some (c.toNat - 55)
  else none

/-- binascii.unhexlify: decodes a hex string two digits per byte; fails on an
odd-length string or on a non-hex character. -/
def unhexlify : Str → Option Bytes
  | [] => some []
  | [_] => none
  | h :: l :: rest =>
    match hexVal h, hexVal l, unhexlify rest with
    | some hv, some lv, some r => some ((16 * hv + lv) :: r)
    | _, _, _ => none

/-- bitcoin.core.lx: hex string to bytes, byte-reversed (interprets the hex
input as little-endian). -/
def lx (s : Str) : Option Bytes := (unhexlify s).map List.reverse

/-- genesis.py lines 55-61, lbytes32 inside parse_args: parser for the -n
starting nonce. The Bool component records whether the truncation warning was
emitted. The source compares the character count of the hex string against 32
before truncating to 64 characters or left-padding with zeros to 64
characters. -/
def lbytes32 (s : Str) : Option Bytes × Bool :=
  if s.length > 32 then (lx (s.take 64), true)
  else (lx (List.replicate (64 - s.length) '0' ++ s), false)

/-- The character class [A-Z] of the token regular expression in genesis.py
line 174. -/
def isUpper (c : Char) : Bool := decide ('A' ≤ c) && decide (c ≤ 'Z')

/-- The five-character token built from a three-letter code: an opening brace,
the three letters, a closing brace. -/
def tokenOf (a b c : Char) : Str := ['\x7b', a, b, c, '\x7d']

/-- A string is token shaped when it is an opening brace, three uppercase
letters and a closing brace, which is exactly the token regular expression of
genesis.py line 174. -/
def tokenShaped (t : Str) : Prop :=
  ∃ a b c, isUpper a = true ∧ isUpper b = true ∧ isUpper c = true ∧ t = tokenOf a b c

/-- Attempts to match the token regular expression at the head of the
string. -/
def tokenAt : Str → Option Str
  | '\x7b' :: a :: b :: c :: '\x7d' :: _ =>
      if isUpper a && isUpper b && isUpper c then some (tokenOf a b c) else none
  | _ => none

/-- re.findall of the token pattern (genesis.py line 174): all non-overlapping
matches, scanned left to right. -/
def findall (s : Str) : List Str :=
  match s with
  | [] => []
  | c :: cs =>
    match tokenAt (c :: cs) with
    | some t => t :: findall (cs.drop 4)
    | none => findall cs
termination_by s.length
decreasing_by
  · simp only [List.length_cons, List.length_drop]; omega
  · simp only [List.length_cons]; omega

/-- Whether the string contains a match of the token regular expression at
some position; a decidable companion of the token search used to exhibit
concrete token-free templates. -/
def hasToken : Str → Bool
  | [] => false
  | c :: cs => (tokenAt (c :: cs)).isSome || hasToken cs

/-- Python str.replace (genesis.py line 175): replaces every non-overlapping
occurrence of the pattern, scanning left to right. The source only calls it
with the five-character tokens, which are never empty. -/
def replaceAll (pat repl : Str) (s : Str) : Str :=
  match s with
  | [] => []
  | c :: cs =>
    if pat.isPrefixOf (c :: cs) then
      repl ++ replaceAll pat repl (cs.drop (pat.length - 1))
    else
      c :: replaceAll pat repl cs
termination_by s.length
decreasing_by
  · simp only [List.length_cons, List.length_drop]; omega
  · simp only [List.length_cons]; omega

/-- One decimal digit as a character. -/
def digitChar10 (k : Nat) : Char :=
  match k with
  | 0 => '0' | 1 => '1' | 2 => '2' | 3 => '3' | 4 => '4'
  | 5 => '5' | 6 => '6' | 7 => '7' | 8 => '8' | _ => '9'

/-- Decimal rendering of a natural number, as produced by the d format
specifier of Python str.format. -/
def natToDecimal (n : Nat) : Str :=
  if n < 10 then [digitChar10 n]
  else natToDecimal (n / 10) ++ [digitChar10 (n % 10)]
termination_by n
decreasing_by
  exact Nat.div_lt_self (by omega) (by omega)

/-- genesis.py lines 180-181: get_latest_block_str formats the looked-up
latest block of a coin code as the code, a number sign, the decimal height, a
space and the hash. -/
def get_latest_block_str (be : Explorer) (coin : Str) : Str :=
  coin ++ '#' :: (natToDecimal (be coin).1 ++ ' ' :: (be coin).2)

/-- coin[1:4] in genesis.py line 175: the three-letter code inside a token. -/
def codeOf (t : Str) : Str := (t.drop 1).take 3

/-- The loop body of genesis.py line 175: timestamp.replace(coin,
get_latest_block_str(coin[1:4])). -/
def substStep (be : Explorer) (t : Str) (tok : Str) : Str :=
  replaceAll tok (get_latest_block_str be (codeOf tok)) t

/-- genesis.py lines 173-175: the token substitution loop of
build_pszTimestamp. -/
def substituteTokens (be : Explorer) (timestamp : Str) : Str :=
  (findall timestamp).foldl (substStep be) timestamp

/-- The sequence of codes passed to the lookup collaborator by the
substitution loop: one get_latest call per findall match, in order. -/
def lookupTrace (timestamp : Str) : List Str := (findall timestamp).map codeOf

/-- UTF-8 encoding of one character (Python str.encode). -/
def utf8Char (c : Char) : Bytes :=
  let n := c.toNat
  if n < 128 then [n]
  else if n < 2048 then [192 + n / 64, 128 + n % 64]
  else if n < 65536 then [224 + n / 4096, 128 + n / 64 % 64, 128 + n % 64]
  else [240 + n / 262144, 128 + n / 4096 % 64, 128 + n / 64 % 64, 128 + n % 64]

/-- UTF-8 encoding of a whole string (Python str.encode). -/
def utf8Encode (s : Str) : Bytes := (s.map utf8Char).flatten

/-- The blake2s lowercase-hex digest collaborator (the pyblake2 library,
external to the repository): bytes to hexdigest string, kept abstract as a
parameter of the embedding. -/
abbrev Digest := Bytes → Str

/-- genesis.py lines 172-178: build_pszTimestamp substitutes all tokens, then
prepends the coin name to the digest of the UTF-8 bytes of the substituted
timestamp. -/
def build_pszTimestamp (blake : Digest) (be : Explorer) (coinname timestamp : Str) : Str :=
  coinname ++ blake (utf8Encode (substituteTokens be timestamp))

/-- The configuration fields of parse_args consumed by
build_EquihashInputHeader. -/
structure HeaderArgs where
  time : Int
  coinname : Str
  timestamp : Str
  pszTimestamp : Option Str
  pubkey : Bytes
  bits : Nat
  extranonce : Option Nat
  value : Int
  nonce : Bytes

/-- genesis.py lines 153-154: args.pszTimestamp if args.pszTimestamp else
build_pszTimestamp(...). By Python truthiness both None and the empty string
select the built timestamp. -/
def resolvePszTimestamp (blake : Digest) (be : Explorer) (args : HeaderArgs) : Str :=
  match args.pszTimestamp with
  | some p => if p = [] then build_pszTimestamp blake be args.coinname args.timestamp else p
  | none => build_pszTimestamp blake be args.coinname args.timestamp

/-- genesis.py line 157: args.extranonce if args.extranonce else bits. By
Python truthiness both None and 0 select bits. -/
def resolveExtranonce (xn : Option Nat) (bits : Nat) : Nat :=
  match xn with
  | some v => if v = 0 then bits else v
  | none => bits

/-- Modelled from the spec (section 4.3 step 3): the little-endian minimal
base-256 encoding of the extranonce used inside the input script. The
encoding itself lives in the external protocol library. -/
def leMinimal (n : Nat) : Bytes :=
  if n = 0 then [] else n % 256 :: leMinimal (n / 256)
termination_by n
decreasing_by
  exact Nat.div_lt_self (by omega) (by omega)

/-- Modelled from the spec (section 4.3 step 3 and the CoinbaseTx invariant):
the input script is the concatenation of the little-endian minimal encoding
of the extranonce, a single byte carrying the payload length, and the UTF-8
bytes of the payload. Script assembly lives in the external protocol
library (CScript), absent from src/. -/
def inputScript (xn : Nat) (payload : Str) : Bytes :=
  leMinimal xn ++ (utf8Encode payload).length % 256 :: utf8Encode payload

/-- The single-byte check-signature opcode marker of the output script. -/
def OP_CHECKSIG : Nat := 172

/-- Modelled from the spec (section 4.3 step 4): the output script is the raw
public-key bytes followed by the check-signature opcode byte. -/
def outputScript (pk : Bytes) : Bytes := pk ++ [OP_CHECKSIG]

/-- The one-input, one-output coinbase transaction of genesis.py lines
158-165. -/
structure CoinbaseTx where
  scriptSig : Bytes
  value : Int
  scriptPubKey : Bytes

/-- The transaction-identifier collaborator (GetTxid of the protocol library),
kept abstract as a parameter. -/
abbrev Txid := CoinbaseTx → Bytes

/-- genesis.py lines 153-165: the coinbase transaction assembled by
build_EquihashInputHeader. -/
def build_CoinbaseTx (blake : Digest) (be : Explorer) (args : HeaderArgs) : CoinbaseTx :=
  { scriptSig := inputScript (resolveExtranonce args.extranonce args.bits)
      (resolvePszTimestamp blake be args)
  , value := args.value
  , scriptPubKey := outputScript args.pubkey }

/-- The CEquihashHeader fields set by genesis.py lines 169-170. -/
structure EquihashHeader where
  nTime : Int
  nBits : Nat
  nNonce : Bytes
  hashMerkleRoot : Bytes

/-- genesis.py lines 152-170: build_EquihashInputHeader. -/
def build_EquihashInputHeader (txid : Txid) (blake : Digest) (be : Explorer)
    (args : HeaderArgs) : EquihashHeader :=
  { nTime := args.time
  , nBits := args.bits
  , nNonce := args.nonce
  , hashMerkleRoot := txid (build_CoinbaseTx blake be args) }

/-- Modelled from the spec: SolverException (solvers module, absent from src/)
carries a human-readable cause. -/
abbrev SolverError := Str

/-- Observable outcome of the orchestrator main, genesis.py lines 44-52: what
was printed, what was warned, and whether the asynchronous event loop was
closed. -/
structure MainOutcome where
  printed : Option (Bytes × Bytes × Bytes)
  warnMsg : Option Str
  loopClosed : Bool

/-- The final header-hash collaborator, genesis.py lines 46-48
(CZBlockHeader.from_EquihashHeader followed by GetHash, external protocol
library), kept abstract as a parameter. -/
abbrev FinalHash := EquihashHeader → Bytes → Bytes → Bytes

/-- genesis.py lines 44-52: the try block around the solver run, the except
branch for SolverException, and the finally branch that closes the event
loop. The solver run itself (an external process, solvers module absent from
src/) is modelled by its result: either a solution and nonce, or a
SolverException. -/
def runMain (fh : FinalHash) (eh : EquihashHeader)
    (runResult : Except SolverError (Bytes × Bytes)) : MainOutcome :=
  match runResult with
  | Except.ok (solution, nonce) =>
      { printed := some (fh eh solution nonce, nonce, solution)
      , warnMsg := none
      , loopClosed := true }
  | Except.error e =>
      { printed := none
      , warnMsg := some (e ++ "\nExiting.".data)
      , loopClosed := true }

/-- The two fatal exits of parse_args after argument parsing: genesis.py line
137 (solver type inference failed) and line 141 (silentarmy with regtest).
Modelled from the spec: logger.fatal (absent from src/) terminates the
program. -/
inductive FatalError where
  | inferFailure
  | silentarmyRegtest
deriving DecidableEq

/-- Modelled from the spec and the argparse configuration of genesis.py lines
115-120: the -S option defaults to tromp when absent, and a present value
outside the two choices is rejected by the argument parser (none). -/
def parsedSolverType (cli : Option Str) : Option Str :=
  match cli with
  | none => some "tromp".data
  | some v => if v = "tromp".data ∨ v = "silentarmy".data then some v else none

/-- The word character class of the regular expression at genesis.py line
134. -/
def isWordChar (c : Char) : Bool :=
  (decide ('a' ≤ c) && decide (c ≤ 'z')) || (decide ('A' ≤ c) && decide (c ≤ 'Z')) ||
  (decide ('0' ≤ c) && decide (c ≤ '9')) || decide (c = '_')

/-- re.search of the anchored pattern at genesis.py line 134: some position
starts with the two letters e q followed by word characters up to the end of
the string. -/
def trompNameMatch : Str → Bool
  | [] => false
  | c :: cs =>
    (decide (c = 'e') &&
      match cs with
      | q :: rest => decide (q = 'q') && rest.all isWordChar
      | [] => false) ||
    trompNameMatch cs

/-- genesis.py lines 131-137: infer the solver type from the binary name when
the -S option produced an empty value. -/
def inferSolverType (solver0 : Str) : Except FatalError Str :=
  if "sa-solver".data.isSuffixOf solver0 then Except.ok "silentarmy".data
  else if trompNameMatch solver0 then Except.ok "tromp".data
  else Except.error FatalError.inferFailure

/-- genesis.py lines 131-141: the post-argparse processing of parse_args: the
solver-type inference branch guarded by falsiness of args.solver_type,
followed by the silentarmy and regtest incompatibility check. -/
def postParseChecks (solver_type solver0 chain : Str) : Except FatalError Str :=
  match (if solver_type = [] then inferSolverType solver0 else Except.ok solver_type) with
  | Except.error e => Except.error e
  | Except.ok st =>
      if st = "silentarmy".data ∧ chain = "regtest".data then
        Except.error FatalError.silentarmyRegtest
      else Except.ok st

/-- The two solver adapter variants constructed by main, genesis.py lines
32-35. Construction data (binary path, rounds, nonce, threads) is irrelevant
to the control-flow claims and omitted. -/
inductive Solver where
  | tromp
  | silentarmy
deriving DecidableEq

/-- genesis.py lines 32-35: main binds a solver object only for the two known
solver type strings. -/
def selectSolver (st : Str) : Option Solver :=
  if st = "tromp".data then some Solver.tromp
  else if st = "silentarmy".data then some Solver.silentarmy
  else none

/-- Result of the startup pipeline: argument parsing, the parse_args checks,
and the solver binding of main, in program order. Anything after a fatal
error never happens; in particular no solver object is constructed and no
external process is spawned. -/
inductive PipelineResult where
  | parseRejected
  | fatal (e : FatalError)
  | solverUnbound
  | solverBound (s : Solver)
deriving DecidableEq

/-- genesis.py lines 28-35 with parse_args: the startup pipeline up to the
solver binding. A fatal error during parse_args stops the run before the
solver objects of lines 33 and 35 are constructed and before any process is
spawned. -/
def mainPipeline (cli : Option Str) (solver0 chain : Str) : PipelineResult :=
  match parsedSolverType cli with
  | none => PipelineResult.parseRejected
  | some st0 =>
    match postParseChecks st0 solver0 chain with
    | Except.error e => PipelineResult.fatal e
    | Except.ok st =>
      match selectSolver st with
      | some s => PipelineResult.solverBound s
      | none => PipelineResult.solverUnbound

theorem replaceAll_nil (pat repl : Str) : replaceAll pat repl [] = [] := by
  simp [replaceAll]

theorem replaceAll_pos {pat : Str} {c : Char} {cs : Str} (repl : Str)
    (h : pat.isPrefixOf (c :: cs)) :
    replaceAll pat repl (c :: cs) = repl ++ replaceAll pat repl (cs.drop (pat.length - 1)) := by
  rw [replaceAll]; simp [h]

theorem replaceAll_neg {pat : Str} {c : Char} {cs : Str} (repl : Str)
    (h : ¬ pat.isPrefixOf (c :: cs)) :
    replaceAll pat repl (c :: cs) = c :: replaceAll pat repl cs := by
  rw [replaceAll]; simp [h]

theorem findall_cons_some {c : Char} {cs : Str} {t : Str} (h : tokenAt (c :: cs) = some t) :
    findall (c :: cs) = t :: findall (cs.drop 4) := by
  rw [findall]; simp [h]

theorem findall_cons_none {c : Char} {cs : Str} (h : tokenAt (c :: cs) = none) :
    findall (c :: cs) = findall cs := by
  rw [findall]; simp [h]

theorem isUpper_ne {c d : Char} (h : isUpper c = true) (hd : isUpper d = false) : c ≠ d := by
  intro hEq; rw [hEq, hd] at h; exact Bool.false_ne_true h

theorem tokenOf_ne_nil (a b c : Char) : tokenOf a b c ≠ [] := by simp [tokenOf]

theorem infix_append_right {h : Char} {t x y : Str} (hx : h ∉ x) (hi : (h :: t) <:+: x ++ y) :
    (h :: t) <:+: y := by
  induction x with
  | nil => simpa using hi
  | cons a x ih =>
    rw [List.cons_append, List.infix_cons_iff] at hi
    rcases hi with hp | hi
    · rw [List.cons_prefix_cons] at hp
      exact absurd hp.1 (by simp only [List.mem_cons, not_or] at hx; exact hx.1)
    · exact ih (fun hm => hx (List.mem_cons_of_mem a hm)) hi

theorem infix_extend_left {l x y : Str} (h : l <:+: y) : l <:+: x ++ y :=
  h.trans (List.suffix_append x y).isInfix

theorem infix_extend_cons {l : Str} {c : Char} {y : Str} (h : l <:+: y) : l <:+: c :: y :=
  h.trans (List.suffix_cons c y).isInfix

theorem infix_of_infix_drop {l s : Str} {n : Nat} (h : l <:+: s.drop n) : l <:+: s :=
  h.trans (List.drop_suffix n s).isInfix

theorem tokenAt_of_shape {a b c : Char} (ha : isUpper a = true) (hb : isUpper b = true)
    (hc : isUpper c = true) (rest : Str) :
    tokenAt (tokenOf a b c ++ rest) = some (tokenOf a b c) := by
  simp [tokenOf, tokenAt, ha, hb, hc]

theorem tokenAt_eq_some {s t : Str} (h : tokenAt s = some t) :
    ∃ a b c tail, isUpper a = true ∧ isUpper b = true ∧ isUpper c = true ∧
      t = tokenOf a b c ∧ s = tokenOf a b c ++ tail := by
  unfold tokenAt at h
  split at h
  · rename_i a b c tail
    by_cases hup : (isUpper a && isUpper b && isUpper c) = true
    · rw [if_pos hup] at h
      simp only [Bool.and_eq_true] at hup
      exact ⟨a, b, c, tail, hup.1.1, hup.1.2, hup.2, (Option.some.injEq _ _).mp h |>.symm, rfl⟩
    · rw [if_neg hup] at h; exact absurd h (by simp)
  · exact absurd h (by simp)

theorem token_prefix_elim {a b c a2 b2 c2 : Char} {rest : Str}
    (h : tokenOf a b c <+: tokenOf a2 b2 c2 ++ rest) : a = a2 ∧ b = b2 ∧ c = c2 := by
  simp only [tokenOf, List.cons_append, List.cons_prefix_cons, List.nil_append] at h
  exact ⟨h.2.1, h.2.2.1, h.2.2.2.1⟩

theorem token_infix_at_token_head {a b c a2 b2 c2 : Char} {rest : Str}
    (ha2 : isUpper a2 = true) (hb2 : isUpper b2 = true) (hc2 : isUpper c2 = true)
    (h : tokenOf a b c <:+: tokenOf a2 b2 c2 ++ rest) :
    tokenOf a b c = tokenOf a2 b2 c2 ∨ tokenOf a b c <:+: rest := by
  rw [show tokenOf a2 b2 c2 ++ rest = '\x7b' :: a2 :: b2 :: c2 :: '\x7d' :: rest from rfl] at h
  rw [List.infix_cons_iff] at h
  rcases h with hp | h
  · obtain ⟨h1, h2, h3⟩ := token_prefix_elim hp
    exact Or.inl (by rw [h1, h2, h3])
  rw [List.infix_cons_iff] at h
  rcases h with hp | h
  · rw [show tokenOf a b c = '\x7b' :: [a, b, c, '\x7d'] from rfl, List.cons_prefix_cons] at hp
    exact absurd hp.1.symm (isUpper_ne ha2 (by decide))
  rw [List.infix_cons_iff] at h
  rcases h with hp | h
  · rw [show tokenOf a b c = '\x7b' :: [a, b, c, '\x7d'] from rfl, List.cons_prefix_cons] at hp
    exact absurd hp.1.symm (isUpper_ne hb2 (by decide))
  rw [List.infix_cons_iff] at h
  rcases h with hp | h
  · rw [show tokenOf a b c = '\x7b' :: [a, b, c, '\x7d'] from rfl, List.cons_prefix_cons] at hp
    exact absurd hp.1.symm (isUpper_ne hc2 (by decide))
  rw [List.infix_cons_iff] at h
  rcases h with hp | h
  · rw [show tokenOf a b c = '\x7b' :: [a, b, c, '\x7d'] from rfl, List.cons_prefix_cons] at hp
    exact absurd hp.1 (by decide)
  exact Or.inr h

theorem replaceAll_token_skip {a2 b2 c2 : Char} (repl : Str) {d : Char} {t : Str}
    (hd : d ≠ '\x7b') :
    replaceAll (tokenOf a2 b2 c2) repl (d :: t) = d :: replaceAll (tokenOf a2 b2 c2) repl t := by
  apply replaceAll_neg
  rw [ List.isPrefixOf_iff_prefix, show tokenOf a2 b2 c2 = '\x7b' :: [a2, b2, c2, '\x7d'] from rfl,
    List.cons_prefix_cons]
  intro h
  exact hd h.1.symm

theorem prefix_replaceAll {a2 b2 c2 : Char} {repl : Str} :
    ∀ (q s : Str), '\x7b' ∉ q → q <+: s → q <+: replaceAll (tokenOf a2 b2 c2) repl s := by
  intro q
  induction q with
  | nil => intro s _ _; exact List.nil_prefix
  | cons d q ih =>
    intro s hq hpre
    cases s with
    | nil => exact absurd (List.prefix_nil.mp hpre) (by simp)
    | cons c cs =>
      rw [List.cons_prefix_cons] at hpre
      obtain ⟨rfl, hpre⟩ := hpre
      simp only [List.mem_cons, not_or] at hq
      rw [replaceAll_token_skip repl (fun hx => hq.1 hx.symm), List.cons_prefix_cons]
      exact ⟨rfl, ih cs hq.2 hpre⟩

theorem not_prefix_replaceAll {pat repl : Str} (hlen : 4 ≤ repl.length) (hrb : '\x7d' ∉ repl) :
    ∀ (s q' : Str), q'.length ≤ 3 → ¬ q' ++ ['\x7d'] <+: s →
      ¬ q' ++ ['\x7d'] <+: replaceAll pat repl s := by
  intro s
  induction s using replaceAll.induct pat repl with
  | case1 =>
    intro q' _ _ h
    rw [replaceAll_nil] at h
    exact absurd (List.prefix_nil.mp h) (by simp)
  | case2 c cs hm ih =>
    intro q' hq3 _ h
    rw [replaceAll_pos repl hm] at h
    have hq : q' ++ ['\x7d'] <+: repl := by
      refine List.prefix_of_prefix_length_le h (List.prefix_append _ _) ?_
      simp only [List.length_append, List.length_singleton]
      omega
    exact hrb (hq.subset (by simp))
  | case3 c cs hm ih =>
    intro q' hq3 hnp h
    rw [replaceAll_neg repl hm] at h
    cases q' with
    | nil =>
      simp only [List.nil_append, List.cons_prefix_cons] at h hnp
      exact hnp ⟨h.1, List.nil_prefix⟩
    | cons d q'' =>
      simp only [List.cons_append, List.cons_prefix_cons] at h hnp
      obtain ⟨rfl, h⟩ := h
      exact ih q'' (by simp only [List.length_cons] at hq3; omega)
        (fun hp => hnp ⟨rfl, hp⟩) h

theorem repl_infix_replaceAll {pat repl : Str} (hne : pat ≠ []) :
    ∀ s, pat <:+: s → repl <:+: replaceAll pat repl s := by
  intro s
  induction s using replaceAll.induct pat repl with
  | case1 =>
    intro h
    exact absurd (List.eq_nil_of_infix_nil h) hne
  | case2 c cs hm ih =>
    intro _
    rw [replaceAll_pos repl hm]
    exact (List.prefix_append repl _).isInfix
  | case3 c cs hm ih =>
    intro h
    rw [replaceAll_neg repl hm]
    rw [List.infix_cons_iff] at h
    rcases h with hp | hi
    · exact absurd (List.isPrefixOf_iff_prefix.mpr hp) hm
    · exact infix_extend_cons (ih hi)

theorem token_not_infix_replaceAll {a b c : Char} {repl : Str}
    (h1 : '\x7b' ∉ repl) (h2 : '\x7d' ∉ repl) (hlen : 4 ≤ repl.length) :
    ∀ s, ¬ tokenOf a b c <:+: replaceAll (tokenOf a b c) repl s := by
  intro s
  induction s using replaceAll.induct (tokenOf a b c) repl with
  | case1 =>
    rw [replaceAll_nil]
    intro h
    exact absurd (List.eq_nil_of_infix_nil h) (tokenOf_ne_nil a b c)
  | case2 cc cs hm ih =>
    rw [replaceAll_pos repl hm]
    intro h
    exact ih (infix_append_right h1 h)
  | case3 cc cs hm ih =>
    rw [replaceAll_neg repl hm]
    intro h
    rw [List.infix_cons_iff] at h
    rcases h with hp | hi
    · rw [show tokenOf a b c = '\x7b' :: ([a, b, c] ++ ['\x7d']) from rfl,
        List.cons_prefix_cons] at hp
      obtain ⟨hcc, hp⟩ := hp
      have hnp : ¬ ([a, b, c] ++ ['\x7d']) <+: cs := by
        intro hx
        apply hm
        rw [ List.isPrefixOf_iff_prefix,
          show tokenOf a b c = '\x7b' :: ([a, b, c] ++ ['\x7d']) from rfl]
        rw [List.cons_prefix_cons]
        exact ⟨hcc, hx⟩
      exact not_prefix_replaceAll hlen h2 cs [a, b, c] (by simp) hnp hp
    · exact ih hi

theorem token_not_infix_replaceAll_other {a b c : Char} {pat repl : Str}
    (h1 : '\x7b' ∉ repl) (h2 : '\x7d' ∉ repl) (hlen : 4 ≤ repl.length) :
    ∀ s, ¬ tokenOf a b c <:+: s → ¬ tokenOf a b c <:+: replaceAll pat repl s := by
  intro s
  induction s using replaceAll.induct pat repl with
  | case1 =>
    intro hn
    rw [replaceAll_nil]
    exact hn
  | case2 cc cs hm ih =>
    intro hn
    rw [replaceAll_pos repl hm]
    intro h
    have hR := infix_append_right h1 h
    exact ih (fun hx => hn (infix_extend_cons (infix_of_infix_drop hx))) hR
  | case3 cc cs hm ih =>
    intro hn
    rw [replaceAll_neg repl hm]
    intro h
    rw [List.infix_cons_iff] at h
    rcases h with hp | hi
    · rw [show tokenOf a b c = '\x7b' :: ([a, b, c] ++ ['\x7d']) from rfl,
        List.cons_prefix_cons] at hp
      obtain ⟨hcc, hp⟩ := hp
      have hnp : ¬ ([a, b, c] ++ ['\x7d']) <+: cs := by
        intro hx
        apply hn
        rw [List.infix_cons_iff]
        left
        rw [show tokenOf a b c = '\x7b' :: ([a, b, c] ++ ['\x7d']) from rfl,
          List.cons_prefix_cons]
        exact ⟨hcc, hx⟩
      exact not_prefix_replaceAll hlen h2 cs [a, b, c] (by simp) hnp hp
    · exact ih (fun hx => hn (infix_extend_cons hx)) hi

theorem token_head_decomp {a2 b2 c2 cc : Char} {cs t : Str}
    (ht : tokenOf a2 b2 c2 ++ t = cc :: cs) :
    cc = '\x7b' ∧ cs = a2 :: b2 :: c2 :: '\x7d' :: t ∧ cs.drop 4 = t := by
  rw [show tokenOf a2 b2 c2 ++ t = '\x7b' :: a2 :: b2 :: c2 :: '\x7d' :: t from rfl] at ht
  rw [List.cons.injEq] at ht
  exact ⟨ht.1.symm, ht.2.symm, by rw [← ht.2]; rfl⟩

theorem token_infix_replaceAll_other {a b c a2 b2 c2 : Char} {repl : Str}
    (ha : isUpper a = true) (hb : isUpper b = true) (hc : isUpper c = true)
    (ha2 : isUpper a2 = true) (hb2 : isUpper b2 = true) (hc2 : isUpper c2 = true)
    (hne : tokenOf a b c ≠ tokenOf a2 b2 c2) :
    ∀ s, tokenOf a b c <:+: s → tokenOf a b c <:+: replaceAll (tokenOf a2 b2 c2) repl s := by
  have hlen5 : (tokenOf a2 b2 c2).length - 1 = 4 := rfl
  intro s
  induction s using replaceAll.induct (tokenOf a2 b2 c2) repl with
  | case1 =>
    intro h
    exact absurd (List.eq_nil_of_infix_nil h) (tokenOf_ne_nil a b c)
  | case2 cc cs hm ih =>
    intro h
    rw [hlen5] at ih
    obtain ⟨t, ht⟩ := List.isPrefixOf_iff_prefix.mp hm
    obtain ⟨hcc, hcs, hdrop⟩ := token_head_decomp ht
    rw [← ht] at h
    rcases token_infix_at_token_head ha2 hb2 hc2 h with heq | hrest
    · exact absurd heq hne
    · rw [replaceAll_pos repl hm, hlen5]
      apply infix_extend_left
      rw [hdrop]
      rw [hdrop] at ih
      exact ih hrest
  | case3 cc cs hm ih =>
    intro h
    rw [replaceAll_neg repl hm]
    rw [List.infix_cons_iff] at h
    rcases h with hp | hi
    · obtain ⟨t, ht⟩ := hp
      rw [show tokenOf a b c ++ t = '\x7b' :: a :: b :: c :: '\x7d' :: t from rfl,
        List.cons.injEq] at ht
      obtain ⟨hcc, hcs⟩ := ht
      rw [← hcs]
      rw [replaceAll_token_skip repl (isUpper_ne ha (by decide)),
        replaceAll_token_skip repl (isUpper_ne hb (by decide)),
        replaceAll_token_skip repl (isUpper_ne hc (by decide)),
        replaceAll_token_skip repl (by decide : '\x7d' ≠ '\x7b')]
      exact ⟨[], replaceAll (tokenOf a2 b2 c2) repl t, by rw [← hcc]; rfl⟩
    · exact infix_extend_cons (ih hi)

theorem infix_preserved_replaceAll {a2 b2 c2 : Char} {repl : Str} {w x y z : Char} {r : Str}
    (hq1 : '\x7b' ∉ w :: x :: y :: z :: r) (hq2 : '\x7d' ∉ [w, x, y, z]) :
    ∀ s, (w :: x :: y :: z :: r) <:+: s →
      (w :: x :: y :: z :: r) <:+: replaceAll (tokenOf a2 b2 c2) repl s := by
  have hlen5 : (tokenOf a2 b2 c2).length - 1 = 4 := rfl
  simp only [List.mem_cons, not_or] at hq1 hq2
  intro s
  induction s using replaceAll.induct (tokenOf a2 b2 c2) repl with
  | case1 =>
    intro h
    exact absurd (List.eq_nil_of_infix_nil h) (by simp)
  | case2 cc cs hm ih =>
    intro h
    rw [hlen5] at ih
    obtain ⟨t, ht⟩ := List.isPrefixOf_iff_prefix.mp hm
    obtain ⟨hcc, hcs, hdrop⟩ := token_head_decomp ht
    rw [← ht] at h
    rw [replaceAll_pos repl hm, hlen5]
    apply infix_extend_left
    rw [hdrop]
    rw [hdrop] at ih
    apply ih
    rw [show tokenOf a2 b2 c2 ++ t = '\x7b' :: a2 :: b2 :: c2 :: '\x7d' :: t from rfl] at h
    rw [List.infix_cons_iff] at h
    rcases h with hp | h
    · rw [List.cons_prefix_cons] at hp
      exact absurd hp.1.symm hq1.1
    rw [List.infix_cons_iff] at h
    rcases h with hp | h
    · simp only [List.cons_prefix_cons] at hp
      exact absurd hp.2.2.2.1.symm hq2.2.2.2.1
    rw [List.infix_cons_iff] at h
    rcases h with hp | h
    · simp only [List.cons_prefix_cons] at hp
      exact absurd hp.2.2.1.symm hq2.2.2.1
    rw [List.infix_cons_iff] at h
    rcases h with hp | h
    · simp only [List.cons_prefix_cons] at hp
      exact absurd hp.2.1.symm hq2.2.1
    rw [List.infix_cons_iff] at h
    rcases h with hp | h
    · simp only [List.cons_prefix_cons] at hp
      exact absurd hp.1.symm hq2.1
    exact h
  | case3 cc cs hm ih =>
    intro h
    rw [replaceAll_neg repl hm]
    rw [List.infix_cons_iff] at h
    rcases h with hp | hi
    · rw [List.cons_prefix_cons] at hp
      obtain ⟨rfl, hp⟩ := hp
      rw [List.infix_cons_iff]
      left
      rw [List.cons_prefix_cons]
      refine ⟨rfl, ?_⟩
      apply prefix_replaceAll _ _ ?_ hp
      simp only [List.mem_cons, not_or]
      exact ⟨hq1.2.1, hq1.2.2.1, hq1.2.2.2.1, hq1.2.2.2.2⟩
    · exact infix_extend_cons (ih hi)

theorem findall_shaped : ∀ s, ∀ t ∈ findall s, tokenShaped t := by
  intro s
  induction s using findall.induct with
  | case1 => intro t ht; rw [show findall [] = [] from by rw [findall]] at ht; simp at ht
  | case2 c cs tok hm ih =>
    intro t ht
    rw [findall_cons_some hm, List.mem_cons] at ht
    rcases ht with rfl | ht
    · obtain ⟨a, b, cc, tail, ha, hb, hc, rfl, _⟩ := tokenAt_eq_some hm
      exact ⟨a, b, cc, ha, hb, hc, rfl⟩
    · exact ih t ht
  | case3 c cs hm ih =>
    intro t ht
    rw [findall_cons_none hm] at ht
    exact ih t ht

theorem token_mem_findall {a b c : Char} (ha : isUpper a = true) (hb : isUpper b = true)
    (hc : isUpper c = true) :
    ∀ s, tokenOf a b c <:+: s → tokenOf a b c ∈ findall s := by
  intro s
  induction s using findall.induct with
  | case1 =>
    intro h
    exact absurd (List.eq_nil_of_infix_nil h) (tokenOf_ne_nil a b c)
  | case2 cc cs tok hm ih =>
    intro h
    rw [findall_cons_some hm]
    obtain ⟨a2, b2, c2, tail, ha2, hb2, hc2, rfl, hs⟩ := tokenAt_eq_some hm
    have hdrop : cs.drop 4 = tail := (token_head_decomp hs.symm).2.2
    rw [hs] at h
    rcases token_infix_at_token_head ha2 hb2 hc2 h with heq | hrest
    · rw [heq]; exact List.mem_cons_self _ _
    · rw [← hdrop] at hrest
      exact List.mem_cons_of_mem _ (ih hrest)
  | case3 cc cs hm ih =>
    intro h
    rw [findall_cons_none hm]
    rw [List.infix_cons_iff] at h
    rcases h with hp | hi
    · obtain ⟨t, ht⟩ := hp
      have : tokenAt (cc :: cs) = some (tokenOf a b c) := by
        rw [← ht]; exact tokenAt_of_shape ha hb hc t
      rw [this] at hm; exact absurd hm (by simp)
    · exact ih hi

theorem findall_eq_nil_of : ∀ s, (∀ t, tokenShaped t → ¬ t <:+: s) → findall s = [] := by
  intro s
  induction s using findall.induct with
  | case1 => intro _; rw [findall]
  | case2 c cs tok hm ih =>
    intro h
    obtain ⟨a, b, cc, tail, ha, hb, hc, rfl, hs⟩ := tokenAt_eq_some hm
    exact absurd ((List.prefix_append _ _).isInfix.trans (by rw [← hs]))
      (h _ ⟨a, b, cc, ha, hb, hc, rfl⟩)
  | case3 c cs hm ih =>
    intro h
    rw [findall_cons_none hm]
    exact ih (fun t ht hi => h t ht (infix_extend_cons hi))

theorem no_token_infix_of_findall_nil {s : Str} (h : findall s = []) :
    ∀ t, tokenShaped t → ¬ t <:+: s := by
  intro t ht hi
  obtain ⟨a, b, c, ha, hb, hc, rfl⟩ := ht
  have := token_mem_findall ha hb hc s hi
  rw [h] at this
  simp at this

theorem digitChar10_not_brace (k : Nat) : digitChar10 k ≠ '\x7b' ∧ digitChar10 k ≠ '\x7d' := by
  unfold digitChar10
  split <;> exact ⟨by decide, by decide⟩

theorem natToDecimal_not_brace : ∀ n, '\x7b' ∉ natToDecimal n ∧ '\x7d' ∉ natToDecimal n := by
  intro n
  induction n using natToDecimal.induct with
  | case1 n h =>
    rw [show natToDecimal n = [digitChar10 n] from by rw [natToDecimal]; simp [h]]
    refine ⟨fun hm => ?_, fun hm => ?_⟩
    · rw [List.mem_singleton] at hm
      exact (digitChar10_not_brace n).1 hm.symm
    · rw [List.mem_singleton] at hm
      exact (digitChar10_not_brace n).2 hm.symm
  | case2 n h ih =>
    rw [show natToDecimal n = natToDecimal (n / 10) ++ [digitChar10 (n % 10)] from by
      rw [natToDecimal]; simp [h]]
    simp only [List.mem_append, List.mem_singleton, not_or]
    exact ⟨⟨ih.1, fun hm => (digitChar10_not_brace (n % 10)).1 hm.symm⟩,
           ⟨ih.2, fun hm => (digitChar10_not_brace (n % 10)).2 hm.symm⟩⟩

theorem glbs_eq (be : Explorer) (code : Str) :
    get_latest_block_str be code =
      code ++ '#' :: (natToDecimal (be code).1 ++ ' ' :: (be code).2) := rfl

theorem glbs_not_brace {be : Explorer} {a b c : Char}
    (ha : isUpper a = true) (hb : isUpper b = true) (hc : isUpper c = true)
    (hbe1 : '\x7b' ∉ (be [a, b, c]).2) (hbe2 : '\x7d' ∉ (be [a, b, c]).2) :
    '\x7b' ∉ get_latest_block_str be [a, b, c] ∧
    '\x7d' ∉ get_latest_block_str be [a, b, c] := by
  rw [glbs_eq]
  simp only [List.cons_append, List.nil_append, List.mem_cons, List.mem_append, not_or]
  refine ⟨⟨?_, ?_, ?_, by decide, ?_, by decide, hbe1⟩, ⟨?_, ?_, ?_, by decide, ?_, by decide, hbe2⟩⟩
  · exact fun h => isUpper_ne ha (by decide) h.symm
  · exact fun h => isUpper_ne hb (by decide) h.symm
  · exact fun h => isUpper_ne hc (by decide) h.symm
  · exact (natToDecimal_not_brace (be [a, b, c]).1).1
  · exact fun h => isUpper_ne ha (by decide) h.symm
  · exact fun h => isUpper_ne hb (by decide) h.symm
  · exact fun h => isUpper_ne hc (by decide) h.symm
  · exact (natToDecimal_not_brace (be [a, b, c]).1).2

theorem glbs_length (be : Explorer) (a b c : Char) :
    4 ≤ (get_latest_block_str be [a, b, c]).length := by
  rw [glbs_eq]
  simp

theorem codeOf_tokenOf (a b c : Char) : codeOf (tokenOf a b c) = [a, b, c] := rfl

theorem substStep_eq (be : Explorer) (t tok : Str) :
    substStep be t tok = replaceAll tok (get_latest_block_str be (codeOf tok)) t := rfl

theorem glbs_cons (be : Explorer) (a b c : Char) :
    get_latest_block_str be [a, b, c] =
      a :: b :: c :: '#' :: (natToDecimal (be [a, b, c]).1 ++ ' ' :: (be [a, b, c]).2) := rfl

theorem tokenOf_inj {a b c a2 b2 c2 : Char} (h : tokenOf a b c = tokenOf a2 b2 c2) :
    a = a2 ∧ b = b2 ∧ c = c2 := by
  simp only [tokenOf, List.cons.injEq, and_true] at h
  exact ⟨h.2.1, h.2.2.1, h.2.2.2⟩

theorem foldl_token_absent {a b c : Char} {be : Explorer}
    (hbe : ∀ code, '\x7b' ∉ (be code).2 ∧ '\x7d' ∉ (be code).2) :
    ∀ (toks : List Str) (x : Str), (∀ t ∈ toks, tokenShaped t) →
      (tokenOf a b c ∈ toks ∨ ¬ tokenOf a b c <:+: x) →
      ¬ tokenOf a b c <:+: toks.foldl (substStep be) x := by
  intro toks
  induction toks with
  | nil =>
    intro x _ h
    rcases h with h | h
    · simp at h
    · simpa using h
  | cons tok rest ih =>
    intro x hshape h
    rw [List.foldl_cons]
    obtain ⟨a2, b2, c2, ha2, hb2, hc2, rfl⟩ := hshape _ (List.mem_cons_self _ _)
    have hrepl := glbs_not_brace ha2 hb2 hc2 (hbe [a2, b2, c2]).1 (hbe [a2, b2, c2]).2
    have hlen := glbs_length be a2 b2 c2
    have hshape' : ∀ t ∈ rest, tokenShaped t := fun t ht => hshape t (List.mem_cons_of_mem _ ht)
    by_cases heq : tokenOf a b c = tokenOf a2 b2 c2
    · obtain ⟨rfl, rfl, rfl⟩ := tokenOf_inj heq
      apply ih _ hshape'
      right
      rw [substStep_eq, codeOf_tokenOf]
      exact token_not_infix_replaceAll hrepl.1 hrepl.2 hlen x
    · rcases h with hmem | habs
      · rcases List.mem_cons.mp hmem with heq2 | hmem2
        · exact absurd heq2 heq
        · exact ih _ hshape' (Or.inl hmem2)
      · apply ih _ hshape'
        right
        rw [substStep_eq, codeOf_tokenOf]
        exact token_not_infix_replaceAll_other hrepl.1 hrepl.2 hlen x habs

theorem foldl_repl_present {a b c : Char} {be : Explorer}
    (hbe : ∀ code, '\x7b' ∉ (be code).2 ∧ '\x7d' ∉ (be code).2)
    (ha : isUpper a = true) (hb : isUpper b = true) (hc : isUpper c = true) :
    ∀ (toks : List Str) (x : Str), (∀ t ∈ toks, tokenShaped t) →
      ((tokenOf a b c ∈ toks ∧ tokenOf a b c <:+: x) ∨
        get_latest_block_str be [a, b, c] <:+: x) →
      get_latest_block_str be [a, b, c] <:+: toks.foldl (substStep be) x := by
  intro toks
  induction toks with
  | nil =>
    intro x _ h
    rcases h with ⟨h, _⟩ | h
    · simp at h
    · simpa using h
  | cons tok rest ih =>
    intro x hshape h
    rw [List.foldl_cons]
    obtain ⟨a2, b2, c2, ha2, hb2, hc2, rfl⟩ := hshape _ (List.mem_cons_self _ _)
    have hshape' : ∀ t ∈ rest, tokenShaped t := fun t ht => hshape t (List.mem_cons_of_mem _ ht)
    rcases h with ⟨hmem, hinf⟩ | hq
    · by_cases heq : tokenOf a b c = tokenOf a2 b2 c2
      · obtain ⟨rfl, rfl, rfl⟩ := tokenOf_inj heq
        apply ih _ hshape'
        right
        rw [substStep_eq, codeOf_tokenOf]
        exact repl_infix_replaceAll (tokenOf_ne_nil a b c) x hinf
      · apply ih _ hshape'
        left
        refine ⟨?_, ?_⟩
        · rcases List.mem_cons.mp hmem with heq2 | hmem2
          · exact absurd heq2 heq
          · exact hmem2
        · rw [substStep_eq, codeOf_tokenOf]
          exact token_infix_replaceAll_other ha hb hc ha2 hb2 hc2 heq x hinf
    · apply ih _ hshape'
      right
      rw [substStep_eq, codeOf_tokenOf]
      have hbr1 : '\x7b' ∉ a :: b :: c :: '#' ::
          (natToDecimal (be [a, b, c]).1 ++ ' ' :: (be [a, b, c]).2) := by
        rw [← glbs_cons]
        exact (glbs_not_brace ha hb hc (hbe [a, b, c]).1 (hbe [a, b, c]).2).1
      have hbr2 : '\x7d' ∉ [a, b, c, '#'] := by
        simp only [List.mem_cons, not_or]
        exact ⟨fun h2 => isUpper_ne ha (by decide) h2.symm,
          fun h2 => isUpper_ne hb (by decide) h2.symm,
          fun h2 => isUpper_ne hc (by decide) h2.symm, by decide, List.not_mem_nil _⟩
      rw [glbs_cons] at hq ⊢
      exact infix_preserved_replaceAll hbr1 hbr2 x hq

theorem resolvePszTimestamp_of_some (blake : Digest) (be : Explorer) (args : HeaderArgs)
    {p : Str} (hp : args.pszTimestamp = some p) :
    resolvePszTimestamp blake be args =
      if p = [] then build_pszTimestamp blake be args.coinname args.timestamp else p := by
  unfold resolvePszTimestamp
  rw [hp]

theorem resolvePszTimestamp_of_none (blake : Digest) (be : Explorer) (args : HeaderArgs)
    (hp : args.pszTimestamp = none) :
    resolvePszTimestamp blake be args =
      build_pszTimestamp blake be args.coinname args.timestamp := by
  unfold resolvePszTimestamp
  rw [hp]

theorem resolveExtranonce_some (v bits : Nat) :
    resolveExtranonce (some v) bits = if v = 0 then bits else v := rfl

theorem resolveExtranonce_none (bits : Nat) : resolveExtranonce none bits = bits := rfl

theorem mainPipeline_of_parsed {cli : Option Str} {st : Str}
    (h : parsedSolverType cli = some st) (solver0 chain : Str) :
    mainPipeline cli solver0 chain =
      match postParseChecks st solver0 chain with
      | Except.error e => PipelineResult.fatal e
      | Except.ok st2 =>
        match selectSolver st2 with
        | some s => PipelineResult.solverBound s
        | none => PipelineResult.solverUnbound := by
  unfold mainPipeline
  rw [h]

theorem no_token_of_hasToken {s : Str} (h : hasToken s = false) :
    ∀ t, tokenShaped t → ¬ t <:+: s := by
  induction s with
  | nil =>
    intro t ht hi
    obtain ⟨a, b, c, _, _, _, rfl⟩ := ht
    exact tokenOf_ne_nil a b c (List.eq_nil_of_infix_nil hi)
  | cons c cs ih =>
    rw [show hasToken (c :: cs) = ((tokenAt (c :: cs)).isSome || hasToken cs) from rfl,
      Bool.or_eq_false_iff] at h
    intro t ht hi
    obtain ⟨a, b, cc, ha, hb, hc, rfl⟩ := ht
    rw [List.infix_cons_iff] at hi
    rcases hi with hp | hi
    · obtain ⟨tail, htl⟩ := hp
      have : tokenAt (c :: cs) = some (tokenOf a b cc) := by
        rw [← htl]; exact tokenAt_of_shape ha hb hc tail
      rw [this] at h
      simp at h
    · exact ih h.2 _ ⟨a, b, cc, ha, hb, hc, rfl⟩ hi

/-- Claim C1 (code bug evidence): the starting-nonce parser lbytes32 violates
the padding contract at a 40-character hex string, which is at most 64
characters long: the truncation warning is emitted and the result has 20
bytes, not the 32 bytes that the left-zero-padding to 64 hex digits described
by the claim (and by the docstring of lbytes32) would produce; the
left-zero-padded decoding of the same string does have 32 bytes. -/
theorem C1_nonce_padding_code_bug :
    (lbytes32 (List.replicate 40 'a')).2 = true ∧
    ((lbytes32 (List.replicate 40 'a')).1.map List.length) = some 20 ∧
    ((lx (List.replicate 24 '0' ++ List.replicate 40 'a')).map List.length) = some 32 := by
  decide

/-- Claim C2 (counterexample): with an explicitly supplied extranonce
override of 0 and difficulty bits 0x1f07ffff, the extranonce embedded in the
coinbase input script is the bits value 520617983, not the supplied 0: by
Python truthiness the zero override selects the bits fallback. -/
theorem C2_extranonce_zero_counterexample :
    resolveExtranonce (some 0) 520617983 = 520617983 ∧ (520617983 : Nat) ≠ 0 ∧
    (build_CoinbaseTx (fun _ => []) (fun _ => (0, []))
      { time := 0, coinname := [], timestamp := [], pszTimestamp := some ['t']
      , pubkey := [], bits := 520617983, extranonce := some 0, value := 0
      , nonce := [] }).scriptSig = inputScript 520617983 ['t'] := by
  refine ⟨rfl, by decide, rfl⟩

/-- Claim C2 (amended): the coinbase input script embeds
resolveExtranonce args.extranonce args.bits, which equals a supplied override
whenever the override is nonzero, and equals the compact difficulty-bits
value when the override is absent or 0. -/
theorem C2_extranonce_amended (blake : Digest) (be : Explorer) (args : HeaderArgs) :
    (build_CoinbaseTx blake be args).scriptSig =
      inputScript (resolveExtranonce args.extranonce args.bits)
        (resolvePszTimestamp blake be args) ∧
    (∀ v, v ≠ 0 → resolveExtranonce (some v) args.bits = v) ∧
    resolveExtranonce none args.bits = args.bits ∧
    resolveExtranonce (some 0) args.bits = args.bits := by
  refine ⟨rfl, fun v hv => ?_, rfl, rfl⟩
  rw [resolveExtranonce_some, if_neg hv]

/-- Witness for the amended claim C2 at a concrete nonzero override. -/
theorem C2_extranonce_amended_witness :
    resolveExtranonce (some 5) 520617983 = 5 :=
  (C2_extranonce_amended (fun _ => []) (fun _ => (0, []))
    { time := 0, coinname := [], timestamp := [], pszTimestamp := none
    , pubkey := [], bits := 520617983, extranonce := some 5, value := 0
    , nonce := [] }).2.1 5 (by decide)

/-- Claim C3 (counterexample): with the empty string supplied as the explicit
pszTimestamp override, the resolved payload is not the override used
verbatim: it is the TimestampBuilder output, here the nonempty string ZX. -/
theorem C3_empty_override_counterexample :
    resolvePszTimestamp (fun _ => ['X']) (fun _ => (0, []))
      { time := 0, coinname := ['Z'], timestamp := ['t'], pszTimestamp := some []
      , pubkey := [], bits := 1, extranonce := none, value := 0, nonce := [] } =
      ['Z', 'X'] ∧ (['Z', 'X'] : Str) ≠ [] := by
  have h1 : findall ['t'] = [] := by
    rw [findall_cons_none (by decide)]
    rw [findall]
  have h2 : substituteTokens (fun _ => (0, [])) ['t'] = ['t'] := by
    unfold substituteTokens
    rw [h1]
    rfl
  refine ⟨?_, by decide⟩
  rw [resolvePszTimestamp_of_some _ _ _ rfl, if_pos rfl]
  unfold build_pszTimestamp
  rw [h2]
  rfl

/-- Claim C3 (amended): a supplied nonempty pszTimestamp override is used
verbatim as the payload, for every digest and explorer collaborator, so
build_pszTimestamp is never consulted; a supplied empty-string override
behaves as if no override were supplied: the payload is the
build_pszTimestamp output, exactly as in the no-override case. -/
theorem C3_psz_override_amended (blake : Digest) (be : Explorer) (args : HeaderArgs) :
    (∀ p, args.pszTimestamp = some p → p ≠ [] →
      resolvePszTimestamp blake be args = p) ∧
    (args.pszTimestamp = none ∨ args.pszTimestamp = some [] →
      resolvePszTimestamp blake be args =
        build_pszTimestamp blake be args.coinname args.timestamp) := by
  constructor
  · intro p hp hne
    rw [resolvePszTimestamp_of_some blake be args hp, if_neg hne]
  · intro h
    rcases h with h | h
    · exact resolvePszTimestamp_of_none blake be args h
    · rw [resolvePszTimestamp_of_some blake be args h, if_pos rfl]

/-- Witness for the amended claim C3 at a concrete nonempty override. -/
theorem C3_psz_override_amended_witness :
    resolvePszTimestamp (fun _ => []) (fun _ => (0, []))
      { time := 0, coinname := [], timestamp := [], pszTimestamp := some ['t']
      , pubkey := [], bits := 1, extranonce := none, value := 0, nonce := [] } = ['t'] :=
  (C3_psz_override_amended (fun _ => []) (fun _ => (0, []))
    { time := 0, coinname := [], timestamp := [], pszTimestamp := some ['t']
    , pubkey := [], bits := 1, extranonce := none, value := 0, nonce := [] }).1
    ['t'] rfl (by decide)

/-- Claim C4: for every coin name and every template containing no substring
matching the token pattern, build_pszTimestamp equals the coin name
concatenated with the digest of the UTF-8 bytes of the template itself, for
every explorer collaborator, and the trace of lookup calls performed by the
substitution loop is empty: no get_latest call occurs. -/
theorem C4_no_token_pure (blake : Digest) (be : Explorer) (coinname timestamp : Str)
    (h : ∀ t, tokenShaped t → ¬ t <:+: timestamp) :
    build_pszTimestamp blake be coinname timestamp =
      coinname ++ blake (utf8Encode timestamp) ∧
    lookupTrace timestamp = [] := by
  have hf := findall_eq_nil_of timestamp h
  unfold build_pszTimestamp substituteTokens lookupTrace
  rw [hf]
  exact ⟨rfl, rfl⟩

/-- Witness for claim C4 at a concrete token-free template. -/
theorem C4_no_token_pure_witness :
    build_pszTimestamp (fun bs => natToDecimal bs.length) (fun _ => (0, []))
        "Zcash".data "hello world".data =
      "Zcash".data ++ natToDecimal (utf8Encode "hello world".data).length ∧
    lookupTrace "hello world".data = [] :=
  C4_no_token_pure (fun bs => natToDecimal bs.length) (fun _ => (0, []))
    "Zcash".data "hello world".data (no_token_of_hasToken (by decide))

/-- Claim C5: for every template containing the token of an uppercase
three-letter code, and every explorer whose returned hash strings contain no
brace characters, the substituted template hashed by build_pszTimestamp
contains the replacement built from the height and hash returned by the
lookup collaborator for that code (code, number sign, decimal height, space,
hash), and contains no occurrence of the literal token; since the token is
universally quantified, every occurrence of each distinct token is
replaced. -/
theorem C5_token_substituted {be : Explorer} {a b c : Char} {timestamp : Str}
    (ha : isUpper a = true) (hb : isUpper b = true) (hc : isUpper c = true)
    (hbe : ∀ code, '\x7b' ∉ (be code).2 ∧ '\x7d' ∉ (be code).2)
    (hT : tokenOf a b c <:+: timestamp) :
    get_latest_block_str be [a, b, c] <:+: substituteTokens be timestamp ∧
    ¬ tokenOf a b c <:+: substituteTokens be timestamp ∧
    ∀ blake coinname, build_pszTimestamp blake be coinname timestamp =
      coinname ++ blake (utf8Encode (substituteTokens be timestamp)) := by
  have hmem := token_mem_findall ha hb hc timestamp hT
  have hsh := findall_shaped timestamp
  refine ⟨?_, ?_, fun blake coinname => rfl⟩
  · exact foldl_repl_present hbe ha hb hc _ _ hsh (Or.inl ⟨hmem, hT⟩)
  · exact foldl_token_absent hbe _ _ hsh (Or.inl hmem)

/-- Witness for claim C5 at a concrete template containing one token. -/
theorem C5_token_substituted_witness :
    get_latest_block_str (fun _ => (7, ['f', '0'])) ['B', 'T', 'C'] <:+:
      substituteTokens (fun _ => (7, ['f', '0'])) "x\x7bBTC\x7dy".data ∧
    ¬ tokenOf 'B' 'T' 'C' <:+:
      substituteTokens (fun _ => (7, ['f', '0'])) "x\x7bBTC\x7dy".data ∧
    ∀ blake coinname,
      build_pszTimestamp blake (fun _ => (7, ['f', '0'])) coinname "x\x7bBTC\x7dy".data =
        coinname ++ blake (utf8Encode
          (substituteTokens (fun _ => (7, ['f', '0'])) "x\x7bBTC\x7dy".data)) :=
  C5_token_substituted (by decide) (by decide) (by decide)
    (fun _ => ⟨by decide, by decide⟩) ⟨['x'], ['y'], rfl⟩

/-- Claim C6: the coinbase input script built by build_EquihashInputHeader is
the concatenation of the little-endian minimal encoding of the resolved
extranonce, a single length-prefix byte, and the UTF-8 bytes of the resolved
payload; the payload length is encoded as a single byte. The script assembly
collaborator is modelled from the spec, the protocol library being external
to the repository. -/
theorem C6_input_script_layout (blake : Digest) (be : Explorer) (args : HeaderArgs) :
    (build_CoinbaseTx blake be args).scriptSig =
      leMinimal (resolveExtranonce args.extranonce args.bits) ++
        (utf8Encode (resolvePszTimestamp blake be args)).length % 256 ::
        utf8Encode (resolvePszTimestamp blake be args) ∧
    (utf8Encode (resolvePszTimestamp blake be args)).length % 256 < 256 :=
  ⟨rfl, Nat.mod_lt _ (by omega)⟩

/-- Claim C7: build_EquihashInputHeader is deterministic for runs with an
explicitly supplied (and accepted, i.e. nonempty) override payload: with the
library collaborators fixed, the resulting header does not depend on the
block-explorer environment, so identical inputs yield identical headers,
field for field, including the merkle root. An empty-string override
re-enters the TimestampBuilder path, see claim C3. -/
theorem C7_deterministic (txid : Txid) (blake : Digest) (be1 be2 : Explorer)
    (args : HeaderArgs) (p : Str) (hp : args.pszTimestamp = some p) (hne : p ≠ []) :
    build_EquihashInputHeader txid blake be1 args =
      build_EquihashInputHeader txid blake be2 args ∧
    (build_EquihashInputHeader txid blake be1 args).hashMerkleRoot =
      (build_EquihashInputHeader txid blake be2 args).hashMerkleRoot := by
  have hres : ∀ be, resolvePszTimestamp blake be args = p := by
    intro be
    rw [resolvePszTimestamp_of_some blake be args hp, if_neg hne]
  have htx : build_CoinbaseTx blake be1 args = build_CoinbaseTx blake be2 args := by
    unfold build_CoinbaseTx
    rw [hres be1, hres be2]
  constructor
  · unfold build_EquihashInputHeader
    rw [htx]
  · unfold build_EquihashInputHeader
    rw [htx]

/-- Witness for claim C7: two runs over different explorer environments
produce the same header. -/
theorem C7_deterministic_witness :
    build_EquihashInputHeader (fun tx => tx.scriptSig) (fun _ => []) (fun _ => (0, []))
      { time := 0, coinname := [], timestamp := [], pszTimestamp := some ['t'],
        pubkey := [], bits := 1, extranonce := none, value := 0, nonce := [] } =
    build_EquihashInputHeader (fun tx => tx.scriptSig) (fun _ => []) (fun _ => (1, ['a']))
      { time := 0, coinname := [], timestamp := [], pszTimestamp := some ['t'],
        pubkey := [], bits := 1, extranonce := none, value := 0, nonce := [] } :=
  (C7_deterministic (fun tx => tx.scriptSig) (fun _ => []) (fun _ => (0, []))
    (fun _ => (1, ['a'])) _ ['t'] rfl (by decide)).1

/-- Claim C8: when the solver run raises SolverException, main emits a
warning carrying the cause and prints no solution output; when it succeeds,
main prints the header hash, nonce and solution; on both exit paths of the
try block the event loop is closed. -/
theorem C8_main_cleanup (fh : FinalHash) (eh : EquihashHeader)
    (r : Except SolverError (Bytes × Bytes)) :
    (runMain fh eh r).loopClosed = true ∧
    (∀ e, r = Except.error e →
      (runMain fh eh r).printed = none ∧
      (runMain fh eh r).warnMsg = some (e ++ "\nExiting.".data)) ∧
    (∀ sol nonce, r = Except.ok (sol, nonce) →
      (runMain fh eh r).printed = some (fh eh sol nonce, nonce, sol) ∧
      (runMain fh eh r).warnMsg = none) := by
  refine ⟨?_, ?_, ?_⟩
  · cases r with
    | ok v => rcases v with ⟨s, n⟩; rfl
    | error e => rfl
  · intro e he
    subst he
    exact ⟨rfl, rfl⟩
  · intro sol nonce he
    subst he
    exact ⟨rfl, rfl⟩

/-- Witness for claim C8 at a concrete solver failure. -/
theorem C8_main_cleanup_witness :
    (runMain (fun _ _ _ => []) { nTime := 0, nBits := 0, nNonce := [], hashMerkleRoot := [] }
      (Except.error ['x'])).printed = none ∧
    (runMain (fun _ _ _ => []) { nTime := 0, nBits := 0, nNonce := [], hashMerkleRoot := [] }
      (Except.error ['x'])).warnMsg = some (['x'] ++ "\nExiting.".data) :=
  (C8_main_cleanup (fun _ _ _ => []) { nTime := 0, nBits := 0, nNonce := [], hashMerkleRoot := [] }
    (Except.error ['x'])).2.1 ['x'] rfl

/-- Claim C9: selecting the silentarmy solver variant together with network
regtest makes the startup pipeline fail with the fatal configuration error
raised inside parse_args, before any solver object is constructed and before
any process could be spawned. -/
theorem C9_silentarmy_regtest (solver0 : Str) :
    mainPipeline (some "silentarmy".data) solver0 "regtest".data =
      PipelineResult.fatal FatalError.silentarmyRegtest ∧
    postParseChecks "silentarmy".data solver0 "regtest".data =
      Except.error FatalError.silentarmyRegtest :=
  ⟨rfl, rfl⟩

/-- Claim C10: every solver type produced by the argument parser is tromp or
silentarmy, hence nonempty, so the solver-type-inference branch is never
taken: the post-parse checks ignore the binary name, can never fail with the
inference fatal error, and always yield a type for which main binds a solver
object; the pipeline never reaches the unbound-solver state. -/
theorem C10_solver_type_total (cli : Option Str) (st : Str)
    (h : parsedSolverType cli = some st) :
    (st = "tromp".data ∨ st = "silentarmy".data) ∧
    (∀ solver0 solver0' chain, postParseChecks st solver0 chain =
      postParseChecks st solver0' chain) ∧
    (∀ solver0 chain, postParseChecks st solver0 chain ≠
      Except.error FatalError.inferFailure) ∧
    (∀ solver0 chain st', postParseChecks st solver0 chain = Except.ok st' →
      (selectSolver st').isSome = true) ∧
    (∀ solver0 chain, mainPipeline cli solver0 chain ≠ PipelineResult.solverUnbound) := by
  have hst : st = "tromp".data ∨ st = "silentarmy".data := by
    cases cli with
    | none =>
      replace h : some "tromp".data = some st := h
      rw [Option.some.injEq] at h
      exact Or.inl h.symm
    | some v =>
      replace h : (if v = "tromp".data ∨ v = "silentarmy".data then some v else none) =
        some st := h
      by_cases hv : v = "tromp".data ∨ v = "silentarmy".data
      · rw [if_pos hv, Option.some.injEq] at h
        rw [← h]
        exact hv
      · rw [if_neg hv] at h
        exact absurd h (by simp)
  have hne : st ≠ [] := by
    rcases hst with rfl | rfl <;> decide
  have hpost : ∀ solver0 chain, postParseChecks st solver0 chain =
      if st = "silentarmy".data ∧ chain = "regtest".data then
        Except.error FatalError.silentarmyRegtest
      else Except.ok st := by
    intro solver0 chain
    unfold postParseChecks
    rw [if_neg hne]
  refine ⟨hst, ?_, ?_, ?_, ?_⟩
  · intro s0 s0' chain
    rw [hpost s0 chain, hpost s0' chain]
  · intro s0 chain
    rw [hpost s0 chain]
    by_cases hreg : st = "silentarmy".data ∧ chain = "regtest".data
    · rw [if_pos hreg]
      simp
    · rw [if_neg hreg]
      simp
  · intro s0 chain st' h3
    rw [hpost s0 chain] at h3
    by_cases hreg : st = "silentarmy".data ∧ chain = "regtest".data
    · rw [if_pos hreg] at h3
      exact absurd h3 (by simp)
    · rw [if_neg hreg] at h3
      rw [Except.ok.injEq] at h3
      rw [← h3]
      rcases hst with rfl | rfl <;> decide
  · intro s0 chain
    rw [mainPipeline_of_parsed h s0 chain, hpost s0 chain]
    by_cases hreg : st = "silentarmy".data ∧ chain = "regtest".data
    · rw [if_pos hreg]
      simp
    · rw [if_neg hreg]
      rcases hst with rfl | rfl <;> decide

/-- Witness for claim C10 with the solver type defaulted by the parser. -/
theorem C10_solver_type_total_witness :
    (("tromp".data : Str) = "tromp".data ∨ ("tromp".data : Str) = "silentarmy".data) ∧
    (∀ solver0 solver0' chain, postParseChecks "tromp".data solver0 chain =
      postParseChecks "tromp".data solver0' chain) ∧
    (∀ solver0 chain, postParseChecks "tromp".data solver0 chain ≠
      Except.error FatalError.inferFailure) ∧
    (∀ solver0 chain st', postParseChecks "tromp".data solver0 chain = Except.ok st' →
      (selectSolver st').isSome = true) ∧
    (∀ solver0 chain, mainPipeline none solver0 chain ≠ PipelineResult.solverUnbound) :=
  C10_solver_type_total none "tromp".data rfl

end GenesisZ
